import Mathlib

/-!
# Verification of the 2D Laplace finite-difference solver (TD8 notebook)

Shallow embedding, in exact rational arithmetic, of the functions of the
notebook cell defining `matrix_builder`, `matrix_solver`, `plot_solution`
and `naive_solver`, together with a sparse assembly modelled from the
specification (the notebook leaves `sparse_matrix_builder` as an exercise
with an empty code cell).

Embedding conventions:
* numpy arrays become total functions `ℤ → ℚ` (vectors) and `ℤ → ℤ → ℚ`
  (matrices); an assignment `A[r, c] = v` becomes a pointwise update that
  applies numpy's negative-index rule (a negative index `c` addresses
  `n + c` on an axis of length `n`).
* `np.linspace(-L/2, L/2, N)` has entries `-L/2 + i * (L / (N - 1))`; for
  `N = 1` numpy returns the single point `-L/2`, which the formula also
  gives in `ℚ` because division by zero yields zero.
* The notebook hard-codes the boundary function as
  `g(x, y) = cos(2π(2x + y)/L)` inside `matrix_builder`; the assembled
  structure of `A` does not depend on `g`, and the embedding takes `g` as
  an explicit parameter so that claims quantified over boundary functions
  can be stated (the hard-coding itself is the subject of claim C3).
* `matrix_solver` is `scipy.linalg.lu_solve(lu_factor(A), B)`, an external
  direct solver; it is modelled by its contract: the returned `X`
  satisfies `A · X = B` row by row (exact-arithmetic idealisation).
-/

namespace LaplaceFD

/-- Entry `i` of `np.linspace(-L/2, L/2, N)`: the grid coordinate
`x_i = -L/2 + i · (L / (N - 1))`.  Also used for `y_j` (same linspace). -/
def xcoord (N : ℕ) (L : ℚ) (i : ℕ) : ℚ :=
  -L/2 + i * (L / ((N : ℚ) - 1))

/-- The interior test of the source loop:
`np.abs(x_grid[i, j]) < L/2 and np.abs(y_grid[i, j]) < L/2`, where with
`indexing='ij'` one has `x_grid[i, j] = x_i` and `y_grid[i, j] = y_j`. -/
def isInside (N : ℕ) (L : ℚ) (i j : ℕ) : Prop :=
  |xcoord N L i| < L/2 ∧ |xcoord N L j| < L/2

instance (N : ℕ) (L : ℚ) (i j : ℕ) : Decidable (isInside N L i j) := by
  unfold isInside; infer_instance

/-- The index-level classification used by the specification:
`(i, j)` is interior iff `0 < i < N-1` and `0 < j < N-1`. -/
def interiorIdx (N i j : ℕ) : Prop :=
  0 < i ∧ i < N - 1 ∧ 0 < j ∧ j < N - 1

instance (N i j : ℕ) : Decidable (interiorIdx N i j) := by
  unfold interiorIdx; infer_instance

/-- numpy index semantics on an axis of length `n`: a negative index `c`
addresses position `n + c`; a non-negative index addresses itself. -/
def npWrap (n c : ℤ) : ℤ :=
  if c < 0 then n + c else c

/-- One assignment `A[r, c] = v` on an `n × n` numpy matrix viewed as a
total function. -/
def writeA (n : ℤ) (A : ℤ → ℤ → ℚ) (r c : ℤ) (v : ℚ) : ℤ → ℤ → ℚ :=
  fun r' c' => if r' = npWrap n r ∧ c' = npWrap n c then v else A r' c'

/-- One assignment `B[r] = v` on a length-`n` numpy vector viewed as a
total function. -/
def writeB (n : ℤ) (B : ℤ → ℚ) (r : ℤ) (v : ℚ) : ℤ → ℚ :=
  fun r' => if r' = npWrap n r then v else B r'

/-- Body of the double loop of `matrix_builder` at grid point `(i, j)`,
acting on the state `(A, B)`.  The writes appear in source order:
interior: `A[k,k] = -4`, `A[k,(i-1)N+j] = 1`, `A[k,(i+1)N+j] = 1`,
`A[k,k+1] = 1`, `A[k,k-1] = 1`; boundary: `A[k,k] = 1`,
`B[k] = g(x_i, y_j)`. -/
def matrixStep (N : ℕ) (L : ℚ) (g : ℚ → ℚ → ℚ)
    (s : (ℤ → ℤ → ℚ) × (ℤ → ℚ)) (p : ℕ × ℕ) : (ℤ → ℤ → ℚ) × (ℤ → ℚ) :=
  let i := p.1
  let j := p.2
  let n : ℤ := (N : ℤ) * N
  let k : ℤ := (i : ℤ) * N + j
  if isInside N L i j then
    (writeA n (writeA n (writeA n (writeA n (writeA n s.1 k k (-4))
        k (((i : ℤ) - 1) * N + j) 1)
        k (((i : ℤ) + 1) * N + j) 1)
        k (k + 1) 1)
        k (k - 1) 1,
     s.2)
  else
    (writeA n s.1 k k 1,
     writeB n s.2 k (g (xcoord N L i) (xcoord N L j)))

/-- The iteration order of the double loop
`for i in range(N): for j in range(N)`. -/
def gridPoints (N : ℕ) : List (ℕ × ℕ) :=
  (List.range N).flatMap fun i => (List.range N).map fun j => (i, j)

/-- The zero arrays `A = np.zeros((N*N, N*N))` and `B = np.zeros(N*N)`. -/
def initState : (ℤ → ℤ → ℚ) × (ℤ → ℚ) :=
  (fun _ _ => 0, fun _ => 0)

/-- Embedding of `matrix_builder(N, L)`: starting from zero arrays, run
the loop body over every grid point and return `(A, B)`.  The boundary
function `g` is a parameter (hard-coded to a cosine in the source, see
the module docstring and claim C3). -/
def matrix_builder (N : ℕ) (L : ℚ) (g : ℚ → ℚ → ℚ) :
    (ℤ → ℤ → ℚ) × (ℤ → ℚ) :=
  (gridPoints N).foldl (matrixStep N L g) initState

/-- Flat row index of grid point `p = (i, j)`. -/
def rowIdxZ (N : ℕ) (p : ℕ × ℕ) : ℤ :=
  (p.1 : ℤ) * N + p.2

/-- Contract of `matrix_solver(A, B) = la.lu_solve(la.lu_factor(A), B)`:
the returned vector `X` satisfies every row equation of `A · X = B`
(exact-arithmetic idealisation of the external LU direct solver). -/
@[reducible] def lin_solves (N : ℕ) (S : (ℤ → ℤ → ℚ) × (ℤ → ℚ))
    (X : ℤ → ℚ) : Prop :=
  ∀ r : ℕ, r < N * N →
    (∑ c in Finset.range (N * N), S.1 r c * X c) = S.2 r

/-- Embedding of `X.reshape((N, N))` as used in `plot_solution` (row `i`
varies the `x` coordinate, column `j` the `y` coordinate); this is also
the specification codec's `toField`: `field[i][j] = X[i·N + j]`. -/
def toField (X : ℕ → ℚ) (N : ℕ) : ℕ → ℕ → ℚ :=
  fun i j => X (i * N + j)

/-- Modelled from the spec: `toVector(field, N) → X`, the inverse of
`toField`; no flattening function appears in the source (only the
reshape in `plot_solution`), so this is the spec's codec direction. -/
def toVector (F : ℕ → ℕ → ℚ) (N : ℕ) : ℕ → ℚ :=
  fun k => F (k / N) (k % N)

/-- Embedding of `naive_solver(N, L, plot=False)`: the Python function
computes `A, B = matrix_builder(N, L)` and `X = matrix_solver(A, B)`,
optionally plots, and falls off the end with no `return` statement — it
returns `None`.  Its observable result, in the type of possible field
outputs, is therefore `none`. -/
def naive_solver (N : ℕ) (L : ℚ) (plot : Bool) : Option (ℕ → ℕ → ℚ) :=
  none

/-- Modelled from the spec: `sparse_matrix_builder` is left as an
exercise (empty code cell) in the notebook.  Following the spec's words —
a sparse encoding storing only the at most 5 nonzeros per row
(compressed-row style), with row `k` decoded to `(i, j) = (k / N, k % N)`,
classified interior iff `0 < i < N-1` and `0 < j < N-1`, interior rows
holding center `-4` and four axis-neighbour `1`s, boundary rows a single
`1` with `B[k] = g(x_i, y_j)`. -/
def sparse_matrix_builder (N : ℕ) (L : ℚ) (g : ℚ → ℚ → ℚ) :
    (ℤ → List (ℤ × ℚ)) × (ℤ → ℚ) :=
  (fun r =>
     if 0 ≤ r ∧ r < (N : ℤ) * N then
       if 0 < r / N ∧ r / N < (N : ℤ) - 1 ∧ 0 < r % N ∧ r % N < (N : ℤ) - 1 then
         [(r, -4), (r - N, 1), (r + N, 1), (r - 1, 1), (r + 1, 1)]
       else [(r, 1)]
     else [],
   fun r =>
     if 0 ≤ r ∧ r < (N : ℤ) * N then
       if 0 < r / N ∧ r / N < (N : ℤ) - 1 ∧ 0 < r % N ∧ r % N < (N : ℤ) - 1 then 0
       else g (xcoord N L (r / N).toNat) (xcoord N L (r % N).toNat)
     else 0)

/-- Materialize a row-wise sparse encoding to a dense matrix: entry
`(r, c)` is the sum of the stored values of row `r` at column `c`. -/
def materialize (rows : ℤ → List (ℤ × ℚ)) : ℤ → ℤ → ℚ :=
  fun r c => ((rows r).map fun e => if e.1 = c then e.2 else 0).sum

/-- Contract of `sparse_matrix_solver` (`scipy.sparse.linalg.spsolve`):
the returned `X` satisfies every row equation of the materialized
system. -/
@[reducible] def sparse_lin_solves (N : ℕ)
    (S : (ℤ → List (ℤ × ℚ)) × (ℤ → ℚ)) (X : ℤ → ℚ) : Prop :=
  ∀ r : ℕ, r < N * N →
    (∑ c in Finset.range (N * N), materialize S.1 r c * X c) = S.2 r

/-- Number of nonzero entries of row `r` of `A` among the `N²` stored
columns. -/
def nnzRow (N : ℕ) (A : ℤ → ℤ → ℚ) (r : ℕ) : ℕ :=
  ((Finset.range (N * N)).filter fun c : ℕ => A r (c : ℤ) ≠ 0).card

/-! ## Classification: the coordinate test agrees with the index test -/

lemma cast_sub_one_pos {N : ℕ} (hN : 2 ≤ N) : (0 : ℚ) < (N : ℚ) - 1 := by
  have h : (2 : ℚ) ≤ (N : ℚ) := by exact_mod_cast hN
  linarith

/-- In exact arithmetic, `|x_i| < L/2` holds exactly when `0 < i < N-1`. -/
lemma coord_abs_lt {N : ℕ} {L : ℚ} (hN : 2 ≤ N) (hL : 0 < L) {i : ℕ}
    (hi : i < N) : |xcoord N L i| < L/2 ↔ (0 < i ∧ i < N - 1) := by
  have hd : (0 : ℚ) < (N : ℚ) - 1 := cast_sub_one_pos hN
  have hq : (0 : ℚ) < L / ((N : ℚ) - 1) := div_pos hL hd
  rw [abs_lt]
  unfold xcoord
  constructor
  · rintro ⟨ha, hb⟩
    have h1 : 0 < (i : ℚ) * (L / ((N : ℚ) - 1)) := by linarith
    have h2 : (i : ℚ) * (L / ((N : ℚ) - 1)) < L := by linarith
    have hipos : 0 < (i : ℚ) := by
      by_contra hc
      push_neg at hc
      have : (i : ℚ) * (L / ((N : ℚ) - 1)) ≤ 0 :=
        mul_nonpos_of_nonpos_of_nonneg hc (le_of_lt hq)
      linarith
    have hilt : (i : ℚ) < (N : ℚ) - 1 := by
      by_contra hc
      push_neg at hc
      have : ((N : ℚ) - 1) * (L / ((N : ℚ) - 1)) ≤ (i : ℚ) * (L / ((N : ℚ) - 1)) :=
        mul_le_mul_of_nonneg_right hc (le_of_lt hq)
      rw [mul_div_cancel₀ L (ne_of_gt hd)] at this
      linarith
    refine ⟨by exact_mod_cast hipos, ?_⟩
    have : (i : ℚ) < ((N - 1 : ℕ) : ℚ) := by
      rw [Nat.cast_sub (by omega : 1 ≤ N)]
      simpa using hilt
    exact_mod_cast this
  · rintro ⟨h1, h2⟩
    have hipos : 0 < (i : ℚ) := by exact_mod_cast h1
    have hilt : (i : ℚ) < (N : ℚ) - 1 := by
      have : (i : ℚ) < ((N - 1 : ℕ) : ℚ) := by exact_mod_cast h2
      rwa [Nat.cast_sub (by omega : 1 ≤ N), Nat.cast_one] at this
    have h3 : 0 < (i : ℚ) * (L / ((N : ℚ) - 1)) := mul_pos hipos hq
    have h4 : (i : ℚ) * (L / ((N : ℚ) - 1)) < ((N : ℚ) - 1) * (L / ((N : ℚ) - 1)) :=
      mul_lt_mul_of_pos_right hilt hq
    rw [mul_div_cancel₀ L (ne_of_gt hd)] at h4
    constructor <;> linarith

/-- The source's coordinate-based interior test coincides with the
spec's index-based classification on valid grids. -/
lemma isInside_iff_interiorIdx {N : ℕ} {L : ℚ} (hN : 2 ≤ N) (hL : 0 < L)
    {i j : ℕ} (hi : i < N) (hj : j < N) :
    isInside N L i j ↔ interiorIdx N i j := by
  unfold isInside interiorIdx
  rw [coord_abs_lt hN hL hi, coord_abs_lt hN hL hj]
  tauto

/-- In the degenerate cases `N < 2` or `L ≤ 0` no grid point passes the
interior test. -/
lemma not_isInside_of_degenerate {N : ℕ} {L : ℚ} (h : N < 2 ∨ L ≤ 0)
    {i j : ℕ} (hi : i < N) (hj : j < N) : ¬ isInside N L i j := by
  rcases h with hN | hL
  · -- N ∈ {0, 1}: the only point is (0,0) with x₀ = -L/2
    rintro ⟨hx, -⟩
    have hi0 : i = 0 := by omega
    have hN1 : N = 1 := by omega
    subst hi0 hN1
    unfold xcoord at hx
    norm_num at hx
    rcases abs_lt.1 hx with ⟨h1, h2⟩
    linarith
  · rintro ⟨hx, -⟩
    have h0 : (0 : ℚ) ≤ |xcoord N L i| := abs_nonneg _
    have : L / 2 ≤ 0 := by linarith
    linarith

/-! ## The assembly loop writes disjoint rows: frame and row lemmas -/

lemma rowIdxZ_eq (N : ℕ) (p : ℕ × ℕ) :
    rowIdxZ N p = ((p.1 * N + p.2 : ℕ) : ℤ) := by
  unfold rowIdxZ; push_cast; ring

lemma rowIdxZ_nonneg (N : ℕ) (p : ℕ × ℕ) : 0 ≤ rowIdxZ N p := by
  rw [rowIdxZ_eq]; exact Int.natCast_nonneg _

lemma rowIdxZ_pair (N i j : ℕ) : rowIdxZ N (i, j) = ((i * N + j : ℕ) : ℤ) :=
  rowIdxZ_eq N (i, j)

lemma npWrap_id {n c : ℤ} (hc : 0 ≤ c) : npWrap n c = c := by
  unfold npWrap; rw [if_neg (not_lt.2 hc)]

/-- Writing to a row other than `r` leaves row `r` of the state
unchanged. -/
lemma step_frame (N : ℕ) (L : ℚ) (g : ℚ → ℚ → ℚ)
    (s : (ℤ → ℤ → ℚ) × (ℤ → ℚ)) (p : ℕ × ℕ) (r : ℤ)
    (hr : r ≠ rowIdxZ N p) :
    (∀ c, (matrixStep N L g s p).1 r c = s.1 r c) ∧
      (matrixStep N L g s p).2 r = s.2 r := by
  have hk : npWrap ((N : ℤ) * N) ((p.1 : ℤ) * N + p.2) = (p.1 : ℤ) * N + p.2 :=
    npWrap_id (rowIdxZ_nonneg N p)
  have hr' : r ≠ (p.1 : ℤ) * N + p.2 := hr
  unfold matrixStep
  by_cases h : isInside N L p.1 p.2
  · rw [if_pos h]
    exact ⟨fun c => by simp [writeA, hk, hr'], rfl⟩
  · rw [if_neg h]
    exact ⟨fun c => by simp [writeA, hk, hr'], by simp [writeB, hk, hr']⟩

/-- The step's action on its own row depends only on that row of the
incoming state. -/
lemma step_row_congr (N : ℕ) (L : ℚ) (g : ℚ → ℚ → ℚ)
    (s t : (ℤ → ℤ → ℚ) × (ℤ → ℚ)) (p : ℕ × ℕ)
    (hA : ∀ c, s.1 (rowIdxZ N p) c = t.1 (rowIdxZ N p) c)
    (hB : s.2 (rowIdxZ N p) = t.2 (rowIdxZ N p)) :
    (∀ c, (matrixStep N L g s p).1 (rowIdxZ N p) c
        = (matrixStep N L g t p).1 (rowIdxZ N p) c) ∧
      (matrixStep N L g s p).2 (rowIdxZ N p)
        = (matrixStep N L g t p).2 (rowIdxZ N p) := by
  simp only [matrixStep]
  by_cases h : isInside N L p.1 p.2
  · simp only [if_pos h]
    refine ⟨fun c => ?_, hB⟩
    simp only [writeA]
    split_ifs <;> first | rfl | exact hA c
  · simp only [if_neg h]
    refine ⟨fun c => ?_, ?_⟩
    · simp only [writeA]
      split_ifs <;> first | rfl | exact hA c
    · simp only [writeB]
      split_ifs <;> first | rfl | exact hB

/-- Folding the loop body over points none of which has row `r` leaves
row `r` unchanged. -/
lemma fold_frame (N : ℕ) (L : ℚ) (g : ℚ → ℚ → ℚ) (l : List (ℕ × ℕ))
    (s : (ℤ → ℤ → ℚ) × (ℤ → ℚ)) (r : ℤ)
    (h : ∀ p ∈ l, rowIdxZ N p ≠ r) :
    (∀ c, (l.foldl (matrixStep N L g) s).1 r c = s.1 r c) ∧
      (l.foldl (matrixStep N L g) s).2 r = s.2 r := by
  induction l generalizing s with
  | nil => exact ⟨fun _ => rfl, rfl⟩
  | cons q t ih =>
    simp only [List.foldl_cons]
    have hq : r ≠ rowIdxZ N q := (h q (List.mem_cons_self q t)).symm
    obtain ⟨sA, sB⟩ := step_frame N L g s q r hq
    obtain ⟨fA, fB⟩ := ih (matrixStep N L g s q)
      (fun p hp => h p (List.mem_cons_of_mem q hp))
    exact ⟨fun c => (fA c).trans (sA c), fB.trans sB⟩

/-- If `p` occurs in `l` and row indices along `l` are pairwise distinct,
then after the fold row `rowIdxZ N p` equals the result of running the
step for `p` alone on the initial state. -/
lemma fold_row (N : ℕ) (L : ℚ) (g : ℚ → ℚ → ℚ) (l : List (ℕ × ℕ))
    (s : (ℤ → ℤ → ℚ) × (ℤ → ℚ)) (p : ℕ × ℕ)
    (hp : p ∈ l) (hnd : (l.map (rowIdxZ N)).Nodup) :
    (∀ c, (l.foldl (matrixStep N L g) s).1 (rowIdxZ N p) c
        = (matrixStep N L g s p).1 (rowIdxZ N p) c) ∧
      (l.foldl (matrixStep N L g) s).2 (rowIdxZ N p)
        = (matrixStep N L g s p).2 (rowIdxZ N p) := by
  induction l generalizing s with
  | nil => cases hp
  | cons q t ih =>
    simp only [List.map_cons, List.nodup_cons] at hnd
    obtain ⟨hqnot, hndt⟩ := hnd
    simp only [List.foldl_cons]
    rcases List.mem_cons.1 hp with rfl | hpt
    · exact fold_frame N L g t (matrixStep N L g s p) (rowIdxZ N p)
        (fun q' hq' he => hqnot (he ▸ List.mem_map_of_mem (rowIdxZ N) hq'))
    · have hne : rowIdxZ N p ≠ rowIdxZ N q := by
        intro he
        exact hqnot (he ▸ List.mem_map_of_mem (rowIdxZ N) hpt)
      obtain ⟨sA, sB⟩ := step_frame N L g s q (rowIdxZ N p) hne
      obtain ⟨fA, fB⟩ := ih (matrixStep N L g s q) hpt hndt
      obtain ⟨cA, cB⟩ := step_row_congr N L g (matrixStep N L g s q) s p sA sB
      exact ⟨fun c => (fA c).trans (cA c), fB.trans cB⟩

/-- Membership in the loop's iteration order. -/
lemma mem_gridPoints {N : ℕ} {p : ℕ × ℕ} :
    p ∈ gridPoints N ↔ p.1 < N ∧ p.2 < N := by
  unfold gridPoints
  simp only [List.mem_flatMap, List.mem_map, List.mem_range]
  constructor
  · rintro ⟨i, hi, j, hj, rfl⟩
    exact ⟨hi, hj⟩
  · rintro ⟨h1, h2⟩
    exact ⟨p.1, h1, p.2, h2, rfl⟩

lemma gridPoints_rowIdx_nodup (N : ℕ) :
    ((gridPoints N).map (rowIdxZ N)).Nodup := by
  unfold gridPoints
  rw [List.map_flatMap]
  have key : ∀ m : ℕ, m ≤ N →
      (((List.range m).flatMap fun i =>
        ((List.range N).map fun j => (i, j)).map (rowIdxZ N))).Nodup ∧
      (∀ e ∈ ((List.range m).flatMap fun i =>
        ((List.range N).map fun j => (i, j)).map (rowIdxZ N)),
          e < (m : ℤ) * N) := by
    intro m
    induction m with
    | zero => intro _; simp
    | succ m ih =>
      intro hm
      obtain ⟨ihnd, ihlt⟩ := ih (by omega)
      rw [List.range_succ, List.flatMap_append]
      constructor
      · rw [List.nodup_append]
        refine ⟨ihnd, ?_, ?_⟩
        · simp only [List.flatMap_cons, List.flatMap_nil, List.append_nil,
            List.map_map]
          refine List.Nodup.map ?_ (List.nodup_range N)
          intro a b hab
          simp only [Function.comp_apply, rowIdxZ] at hab
          omega
        · intro e he he'
          have h1 := ihlt e he
          simp only [List.flatMap_cons, List.flatMap_nil, List.append_nil,
            List.map_map, List.mem_map, List.mem_range] at he'
          obtain ⟨j, hj, rfl⟩ := he'
          simp only [Function.comp_apply, rowIdxZ] at h1
          have : (0 : ℤ) ≤ (m : ℤ) * N := by positivity
          omega
      · intro e he
        rw [List.mem_append] at he
        rcases he with he | he
        · have h1 := ihlt e he
          have hN0 : (0 : ℤ) ≤ (N : ℤ) := by positivity
          push_cast
          nlinarith
        · simp only [List.flatMap_cons, List.flatMap_nil, List.append_nil,
            List.map_map, List.mem_map, List.mem_range] at he
          obtain ⟨j, hj, rfl⟩ := he
          simp only [Function.comp_apply, rowIdxZ]
          have hj' : (j : ℤ) < N := by exact_mod_cast hj
          push_cast
          nlinarith
  exact (key N le_rfl).1

/-- Row `i·N+j` (and entry `i·N+j` of `B`) of the assembled output equals
the result of running the loop body for `(i, j)` alone on zero arrays. -/
lemma builder_row (N : ℕ) (L : ℚ) (g : ℚ → ℚ → ℚ) {i j : ℕ}
    (hi : i < N) (hj : j < N) :
    (∀ c, (matrix_builder N L g).1 (rowIdxZ N (i, j)) c
        = (matrixStep N L g initState (i, j)).1 (rowIdxZ N (i, j)) c) ∧
      (matrix_builder N L g).2 (rowIdxZ N (i, j))
        = (matrixStep N L g initState (i, j)).2 (rowIdxZ N (i, j)) :=
  fold_row N L g (gridPoints N) initState (i, j)
    (mem_gridPoints.2 ⟨hi, hj⟩) (gridPoints_rowIdx_nodup N)

/-! ## Closed forms of the assembled rows -/

/-- Evaluating the five interior writes of the loop body on row `k`. -/
lemma five_writes (n k d : ℤ) (hk : 0 ≤ k) (hkd : 0 ≤ k - d)
    (hk1 : 0 ≤ k - 1) (hd : 2 ≤ d) (A : ℤ → ℤ → ℚ) (c : ℤ) :
    writeA n (writeA n (writeA n (writeA n (writeA n A k k (-4))
        k (k - d) 1) k (k + d) 1) k (k + 1) 1) k (k - 1) 1 k c
      = if c = k then -4
        else if c = k - d ∨ c = k + d ∨ c = k - 1 ∨ c = k + 1 then 1
        else A k c := by
  have w0 : npWrap n k = k := npWrap_id hk
  have w1 : npWrap n (k - d) = k - d := npWrap_id hkd
  have w2 : npWrap n (k + d) = k + d := npWrap_id (by omega)
  have w3 : npWrap n (k + 1) = k + 1 := npWrap_id (by omega)
  have w4 : npWrap n (k - 1) = k - 1 := npWrap_id hk1
  simp only [writeA, w0, w1, w2, w3, w4, eq_self_iff_true, true_and]
  split_ifs <;> first | rfl | omega

/-- Row and right-hand side produced by the loop body for a boundary
point, started from zero arrays. -/
lemma step_init_boundary (N : ℕ) (L : ℚ) (g : ℚ → ℚ → ℚ) {i j : ℕ}
    (h : ¬ isInside N L i j) :
    (∀ c : ℤ, (matrixStep N L g initState (i, j)).1 (rowIdxZ N (i, j)) c
        = if c = rowIdxZ N (i, j) then 1 else 0) ∧
      (matrixStep N L g initState (i, j)).2 (rowIdxZ N (i, j))
        = g (xcoord N L i) (xcoord N L j) := by
  have hk : npWrap ((N : ℤ) * N) ((i : ℤ) * N + j) = (i : ℤ) * N + j :=
    npWrap_id (rowIdxZ_nonneg N (i, j))
  constructor
  · intro c
    simp only [matrixStep, if_neg h, writeA, rowIdxZ, hk, initState,
      eq_self_iff_true, true_and]
  · simp only [matrixStep, if_neg h, writeB, rowIdxZ, hk,
      eq_self_iff_true, if_true]

/-- Row and right-hand side produced by the loop body for an interior
point, started from zero arrays. -/
lemma step_init_interior (N : ℕ) (L : ℚ) (g : ℚ → ℚ → ℚ) {i j : ℕ}
    (hin : isInside N L i j) (h1 : 1 ≤ i) (h2 : i + 1 < N)
    (h3 : 1 ≤ j) (h4 : j + 1 < N) :
    (∀ c : ℤ, (matrixStep N L g initState (i, j)).1 (rowIdxZ N (i, j)) c
        = if c = rowIdxZ N (i, j) then -4
          else if c = rowIdxZ N (i, j) - N ∨ c = rowIdxZ N (i, j) + N
              ∨ c = rowIdxZ N (i, j) - 1 ∨ c = rowIdxZ N (i, j) + 1 then 1
          else 0) ∧
      (matrixStep N L g initState (i, j)).2 (rowIdxZ N (i, j)) = 0 := by
  have hi1 : (1 : ℤ) ≤ (i : ℤ) := by exact_mod_cast h1
  have hj1 : (1 : ℤ) ≤ (j : ℤ) := by exact_mod_cast h3
  have hN3 : (3 : ℤ) ≤ (N : ℤ) := by exact_mod_cast (by omega : 3 ≤ N)
  have hNn : (0 : ℤ) ≤ (N : ℤ) := by positivity
  have hm : ((i : ℤ) - 1) * N + j = ((i : ℤ) * N + j) - N := by ring
  have hp : ((i : ℤ) + 1) * N + j = ((i : ℤ) * N + j) + N := by ring
  have hk : (0 : ℤ) ≤ (i : ℤ) * N + j := rowIdxZ_nonneg N (i, j)
  have hkd : (0 : ℤ) ≤ ((i : ℤ) * N + j) - N := by
    rw [← hm]
    have : (0 : ℤ) ≤ ((i : ℤ) - 1) * N := mul_nonneg (by linarith) hNn
    linarith
  have hk1 : (0 : ℤ) ≤ ((i : ℤ) * N + j) - 1 := by
    have : (1 : ℤ) * N ≤ (i : ℤ) * N := mul_le_mul_of_nonneg_right hi1 hNn
    linarith
  constructor
  · intro c
    simp only [matrixStep, if_pos hin, rowIdxZ]
    rw [hm, hp]
    exact five_writes ((N : ℤ) * N) ((i : ℤ) * N + j) N hk hkd hk1
      (by omega) initState.1 c
  · simp only [matrixStep, if_pos hin, rowIdxZ, initState]

/-- The assembled boundary row: a single `1` on the diagonal, and
`B[k] = g(x_i, y_j)`.  Holds for every `N`, `L` (also degenerate ones),
for every point failing the coordinate interior test. -/
lemma builder_boundary (N : ℕ) (L : ℚ) (g : ℚ → ℚ → ℚ) {i j : ℕ}
    (hi : i < N) (hj : j < N) (h : ¬ isInside N L i j) :
    (∀ c : ℤ, (matrix_builder N L g).1 (rowIdxZ N (i, j)) c
        = if c = rowIdxZ N (i, j) then 1 else 0) ∧
      (matrix_builder N L g).2 (rowIdxZ N (i, j))
        = g (xcoord N L i) (xcoord N L j) := by
  obtain ⟨rA, rB⟩ := builder_row N L g hi hj
  obtain ⟨sA, sB⟩ := step_init_boundary N L g h
  exact ⟨fun c => (rA c).trans (sA c), rB.trans sB⟩

/-- The assembled interior row: `-4` on the diagonal, `1` at the four
axis neighbours `k ± N`, `k ± 1`, zero elsewhere, and `B[k] = 0`. -/
lemma builder_interior (N : ℕ) (L : ℚ) (g : ℚ → ℚ → ℚ) (hN : 2 ≤ N)
    (hL : 0 < L) {i j : ℕ} (hi : i < N) (hj : j < N)
    (hint : interiorIdx N i j) :
    (∀ c : ℤ, (matrix_builder N L g).1 (rowIdxZ N (i, j)) c
        = if c = rowIdxZ N (i, j) then -4
          else if c = rowIdxZ N (i, j) - N ∨ c = rowIdxZ N (i, j) + N
              ∨ c = rowIdxZ N (i, j) - 1 ∨ c = rowIdxZ N (i, j) + 1 then 1
          else 0) ∧
      (matrix_builder N L g).2 (rowIdxZ N (i, j)) = 0 := by
  have hin : isInside N L i j := (isInside_iff_interiorIdx hN hL hi hj).2 hint
  obtain ⟨f1, f2, f3, f4⟩ := hint
  obtain ⟨rA, rB⟩ := builder_row N L g hi hj
  obtain ⟨sA, sB⟩ := step_init_interior N L g hin f1 (by omega) f3 (by omega)
  exact ⟨fun c => (rA c).trans (sA c), rB.trans sB⟩

/-- Rows outside the written range `[0, N²)` are untouched zero rows of
the initial arrays. -/
lemma builder_outside (N : ℕ) (L : ℚ) (g : ℚ → ℚ → ℚ) {r : ℤ}
    (hr : r < 0 ∨ ((N : ℤ) * N) ≤ r) :
    (∀ c, (matrix_builder N L g).1 r c = 0) ∧
      (matrix_builder N L g).2 r = 0 := by
  have h : ∀ p ∈ gridPoints N, rowIdxZ N p ≠ r := by
    intro p hp he
    obtain ⟨h1, h2⟩ := mem_gridPoints.1 hp
    have hlow : 0 ≤ rowIdxZ N p := rowIdxZ_nonneg N p
    have hhigh : rowIdxZ N p < (N : ℤ) * N := by
      rw [rowIdxZ_eq]
      have : p.1 * N + p.2 < N * N := by
        calc p.1 * N + p.2 < p.1 * N + N := by omega
          _ = (p.1 + 1) * N := by ring
          _ ≤ N * N := Nat.mul_le_mul_right N (by omega)
      exact_mod_cast this
    omega
  exact fold_frame N L g (gridPoints N) initState r h

/-! ## Row equations of the assembled system -/

lemma flat_lt {m n i j : ℕ} (hi : i < m) (hj : j < n) : i * n + j < m * n := by
  calc i * n + j < i * n + n := by omega
    _ = (i + 1) * n := by ring
    _ ≤ m * n := Nat.mul_le_mul_right n (by omega)

lemma sum_single (n a : ℕ) (ha : a < n) (v : ℕ → ℚ) :
    (∑ c in Finset.range n, if c = a then v c else 0) = v a := by
  rw [Finset.sum_ite_eq' (Finset.range n) a v, if_pos (Finset.mem_range.2 ha)]

/-- A boundary row equation collapses to the diagonal unknown. -/
lemma sum_row_boundary (N : ℕ) (L : ℚ) (g : ℚ → ℚ → ℚ) {i j : ℕ}
    (hi : i < N) (hj : j < N) (h : ¬ isInside N L i j) (X : ℤ → ℚ) :
    (∑ c in Finset.range (N * N),
        (matrix_builder N L g).1 (rowIdxZ N (i, j)) (c : ℤ) * X (c : ℤ))
      = X (rowIdxZ N (i, j)) := by
  obtain ⟨EA, -⟩ := builder_boundary N L g hi hj h
  have key : ∀ c ∈ Finset.range (N * N),
      (matrix_builder N L g).1 (rowIdxZ N (i, j)) (c : ℤ) * X (c : ℤ)
        = if c = i * N + j then X (rowIdxZ N (i, j)) else 0 := by
    intro c _
    rw [EA (c : ℤ)]
    by_cases hc : c = i * N + j
    · subst hc
      rw [if_pos (rowIdxZ_eq N (i, j)).symm, one_mul, if_pos rfl, rowIdxZ_eq]
    · have hne : (c : ℤ) ≠ rowIdxZ N (i, j) := by
        rw [rowIdxZ_eq]; exact_mod_cast hc
      rw [if_neg hne, zero_mul, if_neg hc]
  rw [Finset.sum_congr rfl key, sum_single _ _ (flat_lt hi hj)]

/-- An interior row equation collapses to the 5-point stencil. -/
lemma sum_row_interior (N : ℕ) (L : ℚ) (g : ℚ → ℚ → ℚ) (hN : 2 ≤ N)
    (hL : 0 < L) {i j : ℕ} (hi : i < N) (hj : j < N)
    (hint : interiorIdx N i j) (X : ℤ → ℚ) :
    (∑ c in Finset.range (N * N),
        (matrix_builder N L g).1 (rowIdxZ N (i, j)) (c : ℤ) * X (c : ℤ))
      = X (rowIdxZ N (i, j) - N) + X (rowIdxZ N (i, j) + N)
        + X (rowIdxZ N (i, j) - 1) + X (rowIdxZ N (i, j) + 1)
        - 4 * X (rowIdxZ N (i, j)) := by
  obtain ⟨EA, -⟩ := builder_interior N L g hN hL hi hj hint
  obtain ⟨f1, f2, f3, f4⟩ := hint
  obtain ⟨i', rfl⟩ : ∃ i', i = i' + 1 := ⟨i - 1, by omega⟩
  obtain ⟨j', rfl⟩ : ∃ j', j = j' + 1 := ⟨j - 1, by omega⟩
  have hN3 : 3 ≤ N := by omega
  obtain ⟨k, hk0⟩ : ∃ k : ℤ, rowIdxZ N (i' + 1, j' + 1) = k := ⟨_, rfl⟩
  rw [hk0] at EA ⊢
  have hkval : k = ((i' : ℤ) + 1) * N + ((j' : ℤ) + 1) := by
    rw [← hk0]; unfold rowIdxZ; push_cast; ring
  -- the five stored columns, as natural numbers
  have castA : ((i' * N + (j' + 1) : ℕ) : ℤ) = k - N := by
    rw [hkval]; push_cast; ring
  have castB : (((i' + 2) * N + (j' + 1) : ℕ) : ℤ) = k + N := by
    rw [hkval]; push_cast; ring
  have castC : (((i' + 1) * N + j' : ℕ) : ℤ) = k - 1 := by
    rw [hkval]; push_cast; ring
  have castD : (((i' + 1) * N + (j' + 2) : ℕ) : ℤ) = k + 1 := by
    rw [hkval]; push_cast; ring
  have castE : (((i' + 1) * N + (j' + 1) : ℕ) : ℤ) = k := by
    rw [hkval]; push_cast; ring
  have dAB : i' * N + (j' + 1) ≠ (i' + 2) * N + (j' + 1) := by
    intro h; have := congrArg (Nat.cast : ℕ → ℤ) h
    rw [castA, castB] at this; omega
  have dAC : i' * N + (j' + 1) ≠ (i' + 1) * N + j' := by
    intro h; have := congrArg (Nat.cast : ℕ → ℤ) h
    rw [castA, castC] at this; omega
  have dAD : i' * N + (j' + 1) ≠ (i' + 1) * N + (j' + 2) := by
    intro h; have := congrArg (Nat.cast : ℕ → ℤ) h
    rw [castA, castD] at this; omega
  have dAE : i' * N + (j' + 1) ≠ (i' + 1) * N + (j' + 1) := by
    intro h; have := congrArg (Nat.cast : ℕ → ℤ) h
    rw [castA, castE] at this; omega
  have dBC : (i' + 2) * N + (j' + 1) ≠ (i' + 1) * N + j' := by
    intro h; have := congrArg (Nat.cast : ℕ → ℤ) h
    rw [castB, castC] at this; omega
  have dBD : (i' + 2) * N + (j' + 1) ≠ (i' + 1) * N + (j' + 2) := by
    intro h; have := congrArg (Nat.cast : ℕ → ℤ) h
    rw [castB, castD] at this; omega
  have dBE : (i' + 2) * N + (j' + 1) ≠ (i' + 1) * N + (j' + 1) := by
    intro h; have := congrArg (Nat.cast : ℕ → ℤ) h
    rw [castB, castE] at this; omega
  have dCD : (i' + 1) * N + j' ≠ (i' + 1) * N + (j' + 2) := by
    intro h; have := congrArg (Nat.cast : ℕ → ℤ) h
    rw [castC, castD] at this; omega
  have dCE : (i' + 1) * N + j' ≠ (i' + 1) * N + (j' + 1) := by
    intro h; have := congrArg (Nat.cast : ℕ → ℤ) h
    rw [castC, castE] at this; omega
  have dDE : (i' + 1) * N + (j' + 2) ≠ (i' + 1) * N + (j' + 1) := by
    intro h; have := congrArg (Nat.cast : ℕ → ℤ) h
    rw [castD, castE] at this; omega
  have key : ∀ c ∈ Finset.range (N * N),
      (matrix_builder N L g).1 k (c : ℤ) * X (c : ℤ)
        = (if c = i' * N + (j' + 1) then X (k - N) else 0)
          + ((if c = (i' + 2) * N + (j' + 1) then X (k + N) else 0)
          + ((if c = (i' + 1) * N + j' then X (k - 1) else 0)
          + ((if c = (i' + 1) * N + (j' + 2) then X (k + 1) else 0)
          + (if c = (i' + 1) * N + (j' + 1) then (-4) * X k else 0)))) := by
    intro c _
    rw [EA (c : ℤ)]
    by_cases hA : c = i' * N + (j' + 1)
    · subst hA
      rw [castA, if_neg (by omega : ¬(k - (N : ℤ) = k)),
        if_pos (Or.inl rfl), one_mul, if_pos rfl, if_neg dAB, if_neg dAC,
        if_neg dAD, if_neg dAE]
      ring
    · by_cases hB : c = (i' + 2) * N + (j' + 1)
      · subst hB
        rw [castB, if_neg (by omega : ¬(k + (N : ℤ) = k)),
          if_pos (Or.inr (Or.inl rfl)), one_mul, if_neg (Ne.symm dAB),
          if_pos rfl, if_neg dBC, if_neg dBD, if_neg dBE]
        ring
      · by_cases hC : c = (i' + 1) * N + j'
        · subst hC
          rw [castC, if_neg (by omega : ¬(k - 1 = k)),
            if_pos (Or.inr (Or.inr (Or.inl rfl))), one_mul,
            if_neg (Ne.symm dAC), if_neg (Ne.symm dBC), if_pos rfl,
            if_neg dCD, if_neg dCE]
          ring
        · by_cases hD : c = (i' + 1) * N + (j' + 2)
          · subst hD
            rw [castD, if_neg (by omega : ¬(k + 1 = k)),
              if_pos (Or.inr (Or.inr (Or.inr rfl))), one_mul,
              if_neg (Ne.symm dAD), if_neg (Ne.symm dBD),
              if_neg (Ne.symm dCD), if_pos rfl, if_neg dDE]
            ring
          · by_cases hE : c = (i' + 1) * N + (j' + 1)
            · subst hE
              rw [castE, if_pos rfl, if_neg (Ne.symm dAE),
                if_neg (Ne.symm dBE), if_neg (Ne.symm dCE),
                if_neg (Ne.symm dDE), if_pos rfl]
              ring
            · rw [if_neg, if_neg, zero_mul, if_neg hA, if_neg hB, if_neg hC,
                if_neg hD, if_neg hE]
              · ring
              · rintro (hc | hc | hc | hc)
                · exact hA (Nat.cast_inj.mp (by rw [castA]; exact hc))
                · exact hB (Nat.cast_inj.mp (by rw [castB]; exact hc))
                · exact hC (Nat.cast_inj.mp (by rw [castC]; exact hc))
                · exact hD (Nat.cast_inj.mp (by rw [castD]; exact hc))
              · intro hc
                exact hE (Nat.cast_inj.mp (by rw [castE]; exact hc))
  rw [Finset.sum_congr rfl key]
  rw [Finset.sum_add_distrib, Finset.sum_add_distrib, Finset.sum_add_distrib,
    Finset.sum_add_distrib]
  rw [sum_single _ _ (flat_lt (by omega) (by omega)),
    sum_single _ _ (flat_lt (by omega) (by omega)),
    sum_single _ _ (flat_lt (by omega) (by omega)),
    sum_single _ _ (flat_lt (by omega) (by omega)),
    sum_single _ _ (flat_lt (by omega) (by omega))]
  ring

/-! ## Discrete maximum principle and uniqueness of solutions -/

/-- Discrete maximum principle: a grid function vanishing on boundary
points and satisfying the homogeneous stencil identity at interior
points is nonpositive on the grid. -/
lemma grid_nonpos (N : ℕ) (V : ℤ → ℚ)
    (hbnd : ∀ i j : ℕ, i < N → j < N → ¬ interiorIdx N i j →
      V (rowIdxZ N (i, j)) = 0)
    (hstencil : ∀ i j : ℕ, i < N → j < N → interiorIdx N i j →
      V (rowIdxZ N (i, j) - N) + V (rowIdxZ N (i, j) + N)
        + V (rowIdxZ N (i, j) - 1) + V (rowIdxZ N (i, j) + 1)
        = 4 * V (rowIdxZ N (i, j))) :
    ∀ i j : ℕ, i < N → j < N → V (rowIdxZ N (i, j)) ≤ 0 := by
  intro i j hi hj
  classical
  have hN : 1 ≤ N := by omega
  set G : Finset (ℕ × ℕ) := Finset.range N ×ˢ Finset.range N with hG
  set f : ℕ × ℕ → ℚ := fun p => V (rowIdxZ N p) with hf
  have hGmem : ∀ q : ℕ × ℕ, q ∈ G ↔ q.1 < N ∧ q.2 < N := by
    intro q
    simp [hG, Finset.mem_product]
  have hGne : G.Nonempty := ⟨(0, 0), (hGmem (0, 0)).2 (by omega)⟩
  obtain ⟨m, hmG, hmax⟩ := G.exists_max_image f hGne
  set P : Finset (ℕ × ℕ) := G.filter (fun q => f m ≤ f q) with hP
  have hPne : P.Nonempty := ⟨m, Finset.mem_filter.2 ⟨hmG, le_refl _⟩⟩
  obtain ⟨p, hpP, hpmin⟩ := P.exists_min_image (fun q => q.2) hPne
  have hpG : p ∈ G := (Finset.mem_filter.1 hpP).1
  have hpf : f p = f m := le_antisymm (hmax p hpG) (Finset.mem_filter.1 hpP).2
  have hp1 : p.1 < N := ((hGmem p).1 hpG).1
  have hp2 : p.2 < N := ((hGmem p).1 hpG).2
  have htarget : f (i, j) ≤ f m := hmax (i, j) ((hGmem (i, j)).2 ⟨hi, hj⟩)
  by_cases hpint : interiorIdx N p.1 p.2
  · -- an interior maximiser propagates the maximum to smaller `j`
    exfalso
    obtain ⟨g1, g2, g3, g4⟩ := hpint
    obtain ⟨a, ha⟩ : ∃ a, p.1 = a + 1 := ⟨p.1 - 1, by omega⟩
    obtain ⟨b, hb⟩ : ∃ b, p.2 = b + 1 := ⟨p.2 - 1, by omega⟩
    have hkL : rowIdxZ N (a, b + 1) = rowIdxZ N p - N := by
      unfold rowIdxZ; rw [ha, hb]; push_cast; ring
    have hkR : rowIdxZ N (a + 2, b + 1) = rowIdxZ N p + N := by
      unfold rowIdxZ; rw [ha, hb]; push_cast; ring
    have hkD : rowIdxZ N (a + 1, b) = rowIdxZ N p - 1 := by
      unfold rowIdxZ; rw [ha, hb]; push_cast; ring
    have hkU : rowIdxZ N (a + 1, b + 2) = rowIdxZ N p + 1 := by
      unfold rowIdxZ; rw [ha, hb]; push_cast; ring
    have hs := hstencil p.1 p.2 hp1 hp2 ⟨g1, g2, g3, g4⟩
    rw [show ((p.1 : ℕ), (p.2 : ℕ)) = p from rfl] at hs
    rw [← hkL, ← hkR, ← hkD, ← hkU] at hs
    have hL : f (a, b + 1) ≤ f m :=
      hmax _ ((hGmem _).2 ⟨by omega, by omega⟩)
    have hR : f (a + 2, b + 1) ≤ f m :=
      hmax _ ((hGmem _).2 ⟨by omega, by omega⟩)
    have hD : f (a + 1, b) ≤ f m :=
      hmax _ ((hGmem _).2 ⟨by omega, by omega⟩)
    have hU : f (a + 1, b + 2) ≤ f m :=
      hmax _ ((hGmem _).2 ⟨by omega, by omega⟩)
    have hDmax : f m ≤ f (a + 1, b) := by
      have h4 : f (a, b + 1) + f (a + 2, b + 1) + f (a + 1, b) + f (a + 1, b + 2)
          = 4 * f p := hs
      rw [hpf] at h4
      linarith
    have hDP : (a + 1, b) ∈ P :=
      Finset.mem_filter.2 ⟨(hGmem _).2 ⟨by omega, by omega⟩, hDmax⟩
    have := hpmin (a + 1, b) hDP
    simp only [hb] at this
    omega
  · -- a boundary maximiser pins the maximum at zero
    have h0 : f p = 0 := hbnd p.1 p.2 hp1 hp2 hpint
    have : f (i, j) ≤ 0 := by rw [← hpf] at htarget; rw [← h0]; exact htarget
    exact this

/-- A grid function vanishing on the boundary and satisfying the
homogeneous stencil identity vanishes identically on the grid. -/
lemma grid_zero (N : ℕ) (V : ℤ → ℚ)
    (hbnd : ∀ i j : ℕ, i < N → j < N → ¬ interiorIdx N i j →
      V (rowIdxZ N (i, j)) = 0)
    (hstencil : ∀ i j : ℕ, i < N → j < N → interiorIdx N i j →
      V (rowIdxZ N (i, j) - N) + V (rowIdxZ N (i, j) + N)
        + V (rowIdxZ N (i, j) - 1) + V (rowIdxZ N (i, j) + 1)
        = 4 * V (rowIdxZ N (i, j))) :
    ∀ i j : ℕ, i < N → j < N → V (rowIdxZ N (i, j)) = 0 := by
  intro i j hi hj
  have h1 := grid_nonpos N V hbnd hstencil i j hi hj
  have h2 := grid_nonpos N (fun c => -V c)
    (fun i j hi hj hb => by simp [hbnd i j hi hj hb])
    (fun i j hi hj hin => by
      have := hstencil i j hi hj hin
      simp only
      linarith)
    i j hi hj
  simp only at h2
  linarith

/-- Any two exact solutions of the assembled system agree on every grid
unknown. -/
lemma builder_unique (N : ℕ) (L : ℚ) (g : ℚ → ℚ → ℚ) (hN : 2 ≤ N)
    (hL : 0 < L) {X Y : ℤ → ℚ}
    (hX : lin_solves N (matrix_builder N L g) X)
    (hY : lin_solves N (matrix_builder N L g) Y) :
    ∀ i j : ℕ, i < N → j < N →
      X (rowIdxZ N (i, j)) = Y (rowIdxZ N (i, j)) := by
  have key := grid_zero N (fun c => X c - Y c)
    (by
      intro i j hi hj hb
      have hnin : ¬ isInside N L i j :=
        fun hin => hb ((isInside_iff_interiorIdx hN hL hi hj).1 hin)
      have e1 := hX (i * N + j) (flat_lt hi hj)
      have e2 := hY (i * N + j) (flat_lt hi hj)
      rw [← rowIdxZ_pair, sum_row_boundary N L g hi hj hnin X] at e1
      rw [← rowIdxZ_pair, sum_row_boundary N L g hi hj hnin Y] at e2
      simp only
      rw [e1, e2, sub_self])
    (by
      intro i j hi hj hin
      have e1 := hX (i * N + j) (flat_lt hi hj)
      have e2 := hY (i * N + j) (flat_lt hi hj)
      rw [← rowIdxZ_pair, sum_row_interior N L g hN hL hi hj hin X] at e1
      rw [← rowIdxZ_pair, sum_row_interior N L g hN hL hi hj hin Y] at e2
      simp only
      linarith)
  intro i j hi hj
  have := key i j hi hj
  simp only at this
  linarith

/-! ## The spec-modelled sparse assembly materializes to the dense one -/

lemma decode_div {N i j : ℕ} (hj : j < N) :
    rowIdxZ N (i, j) / N = (i : ℤ) := by
  unfold rowIdxZ
  have hN : ((N : ℤ)) ≠ 0 := by
    intro h
    have : N = 0 := by exact_mod_cast h
    omega
  rw [add_comm, Int.add_mul_ediv_right _ _ hN,
    Int.ediv_eq_zero_of_lt (by positivity) (by exact_mod_cast hj), zero_add]

lemma decode_mod {N i j : ℕ} (hj : j < N) :
    rowIdxZ N (i, j) % N = (j : ℤ) := by
  unfold rowIdxZ
  rw [add_comm, Int.add_mul_emod_self,
    Int.emod_eq_of_lt (by positivity) (by exact_mod_cast hj)]

lemma decode_range {N : ℕ} {r : ℤ} (h0 : 0 ≤ r) (h1 : r < (N : ℤ) * N) :
    ∃ i j : ℕ, i < N ∧ j < N ∧ r = rowIdxZ N (i, j) := by
  have hN : 0 < N := by
    rcases Nat.eq_zero_or_pos N with h | h
    · subst h; simp at h1; omega
    · exact h
  have hNz : (0 : ℤ) < (N : ℤ) := by exact_mod_cast hN
  refine ⟨(r / N).toNat, (r % N).toNat, ?_, ?_, ?_⟩
  · rw [Int.toNat_lt (Int.ediv_nonneg h0 (le_of_lt hNz))]
    exact (Int.ediv_lt_iff_lt_mul hNz).2 (by linarith [h1])
  · rw [Int.toNat_lt (Int.emod_nonneg r (ne_of_gt hNz))]
    exact Int.emod_lt_of_pos r hNz
  · unfold rowIdxZ
    simp only
    rw [Int.toNat_of_nonneg (Int.ediv_nonneg h0 (le_of_lt hNz)),
      Int.toNat_of_nonneg (Int.emod_nonneg r (ne_of_gt hNz))]
    have := Int.ediv_add_emod r (N : ℤ)
    linarith

/-- The spec's index classification of a decoded row agrees with
`interiorIdx`. -/
lemma sparse_class_iff {N i j : ℕ} (hi : i < N) (hj : j < N) :
    (0 < rowIdxZ N (i, j) / N ∧ rowIdxZ N (i, j) / N < (N : ℤ) - 1
      ∧ 0 < rowIdxZ N (i, j) % N ∧ rowIdxZ N (i, j) % N < (N : ℤ) - 1)
    ↔ interiorIdx N i j := by
  rw [decode_div hj, decode_mod hj]
  unfold interiorIdx
  constructor
  · rintro ⟨h1, h2, h3, h4⟩
    refine ⟨by exact_mod_cast h1, ?_, by exact_mod_cast h3, ?_⟩ <;> omega
  · rintro ⟨h1, h2, h3, h4⟩
    refine ⟨by exact_mod_cast h1, ?_, by exact_mod_cast h3, ?_⟩ <;> omega

/-- Materializing the spec-modelled sparse matrix gives entry-for-entry
the dense assembled matrix. -/
lemma materialize_eq_dense (N : ℕ) (L : ℚ) (g : ℚ → ℚ → ℚ) (hN : 2 ≤ N)
    (hL : 0 < L) (r c : ℤ) :
    materialize ((sparse_matrix_builder N L g).1) r c
      = (matrix_builder N L g).1 r c := by
  by_cases hr : 0 ≤ r ∧ r < (N : ℤ) * N
  · obtain ⟨i, j, hi, hj, hrk⟩ := decode_range hr.1 hr.2
    by_cases hint : interiorIdx N i j
    · have hN3 : 3 ≤ N := by
        obtain ⟨f1, f2, f3, f4⟩ := hint; omega
      have hrow : (sparse_matrix_builder N L g).1 r
          = [(r, -4), (r - N, 1), (r + N, 1), (r - 1, 1), (r + 1, 1)] := by
        unfold sparse_matrix_builder
        simp only
        rw [if_pos hr, if_pos (by rw [hrk]; exact (sparse_class_iff hi hj).2 hint)]
      have EA := (builder_interior N L g hN hL hi hj hint).1
      rw [← hrk] at EA
      rw [EA c]
      unfold materialize
      rw [hrow]
      simp only [List.map_cons, List.map_nil, List.sum_cons, List.sum_nil]
      have hN2 : (2 : ℤ) ≤ (N : ℤ) := by exact_mod_cast hN
      split_ifs <;> first | ring1 | (exfalso; omega)
    · have hnin : ¬ isInside N L i j :=
        fun hin => hint ((isInside_iff_interiorIdx hN hL hi hj).1 hin)
      have hrow : (sparse_matrix_builder N L g).1 r = [(r, 1)] := by
        unfold sparse_matrix_builder
        simp only
        rw [if_pos hr, if_neg (by rw [hrk]; exact fun hcl => hint ((sparse_class_iff hi hj).1 hcl))]
      have EA := (builder_boundary N L g hi hj hnin).1
      rw [← hrk] at EA
      rw [EA c]
      unfold materialize
      rw [hrow]
      simp only [List.map_cons, List.map_nil, List.sum_cons, List.sum_nil]
      split_ifs <;> first | ring1 | (exfalso; omega)
  · have hrout : r < 0 ∨ ((N : ℤ) * N) ≤ r := by
      rcases not_and_or.1 hr with h | h
      · left; omega
      · right; omega
    have hrow : (sparse_matrix_builder N L g).1 r = [] := by
      unfold sparse_matrix_builder
      simp only
      rw [if_neg hr]
    rw [(builder_outside N L g hrout).1 c]
    unfold materialize
    rw [hrow]
    simp

/-- The spec-modelled sparse right-hand side equals the dense one. -/
lemma sparse_B_eq_dense (N : ℕ) (L : ℚ) (g : ℚ → ℚ → ℚ) (hN : 2 ≤ N)
    (hL : 0 < L) (r : ℤ) :
    (sparse_matrix_builder N L g).2 r = (matrix_builder N L g).2 r := by
  by_cases hr : 0 ≤ r ∧ r < (N : ℤ) * N
  · obtain ⟨i, j, hi, hj, hrk⟩ := decode_range hr.1 hr.2
    by_cases hint : interiorIdx N i j
    · have hB := (builder_interior N L g hN hL hi hj hint).2
      rw [← hrk] at hB
      rw [hB]
      unfold sparse_matrix_builder
      simp only
      rw [if_pos hr, if_pos (by rw [hrk]; exact (sparse_class_iff hi hj).2 hint)]
    · have hnin : ¬ isInside N L i j :=
        fun hin => hint ((isInside_iff_interiorIdx hN hL hi hj).1 hin)
      have hB := (builder_boundary N L g hi hj hnin).2
      rw [← hrk] at hB
      rw [hB]
      unfold sparse_matrix_builder
      simp only
      rw [if_pos hr, if_neg (by rw [hrk]; exact fun hcl => hint ((sparse_class_iff hi hj).1 hcl))]
      rw [hrk, decode_div hj, decode_mod hj]
      simp
  · have hrout : r < 0 ∨ ((N : ℤ) * N) ≤ r := by
      rcases not_and_or.1 hr with h | h
      · left; omega
      · right; omega
    rw [(builder_outside N L g hrout).2]
    unfold sparse_matrix_builder
    simp only
    rw [if_neg hr]

/-- The sparse solve contract coincides with the dense one. -/
lemma sparse_solves_iff_dense (N : ℕ) (L : ℚ) (g : ℚ → ℚ → ℚ)
    (hN : 2 ≤ N) (hL : 0 < L) (X : ℤ → ℚ) :
    sparse_lin_solves N (sparse_matrix_builder N L g) X
      ↔ lin_solves N (matrix_builder N L g) X := by
  unfold sparse_lin_solves lin_solves
  constructor <;> intro h r hr
  · have := h r hr
    rw [Finset.sum_congr rfl
        (fun c _ => by rw [materialize_eq_dense N L g hN hL]),
      sparse_B_eq_dense N L g hN hL] at this
    exact this
  · have := h r hr
    rw [Finset.sum_congr rfl
        (fun c _ => by rw [materialize_eq_dense N L g hN hL]),
      sparse_B_eq_dense N L g hN hL]
    exact this

/-! ## Nonzero counts of the assembled matrix -/

lemma sum_range_mul_eq (m n : ℕ) (f : ℕ → ℕ) :
    (∑ k in Finset.range (m * n), f k)
      = ∑ i in Finset.range m, ∑ j in Finset.range n, f (i * n + j) := by
  rcases Nat.eq_zero_or_pos n with hn | hn
  · subst hn; simp
  rw [← Finset.sum_product (Finset.range m) (Finset.range n)
    (fun p => f (p.1 * n + p.2))]
  refine Finset.sum_nbij' (fun k => (k / n, k % n)) (fun p => p.1 * n + p.2)
    ?_ ?_ ?_ ?_ ?_
  · intro k hk
    rw [Finset.mem_range] at hk
    rw [Finset.mem_product, Finset.mem_range, Finset.mem_range]
    exact ⟨(Nat.div_lt_iff_lt_mul hn).2 hk, Nat.mod_lt _ hn⟩
  · intro p hp
    rw [Finset.mem_product, Finset.mem_range, Finset.mem_range] at hp
    exact Finset.mem_range.2 (flat_lt hp.1 hp.2)
  · intro k _
    simp only
    rw [mul_comm]
    exact Nat.div_add_mod k n
  · intro p hp
    rw [Finset.mem_product, Finset.mem_range, Finset.mem_range] at hp
    have hdiv : (p.1 * n + p.2) / n = p.1 := by
      rw [add_comm, Nat.add_mul_div_right _ _ hn, Nat.div_eq_of_lt hp.2,
        zero_add]
    have hmod : (p.1 * n + p.2) % n = p.2 := by
      rw [add_comm, Nat.add_mul_mod_self_right, Nat.mod_eq_of_lt hp.2]
    simp only
    rw [hdiv, hmod]
  · intro k _
    simp only
    congr 1
    rw [mul_comm]
    exact (Nat.div_add_mod k n).symm

/-- Boundary rows hold exactly one nonzero entry. -/
lemma nnzRow_boundary (N : ℕ) (L : ℚ) (g : ℚ → ℚ → ℚ) {i j : ℕ}
    (hi : i < N) (hj : j < N) (h : ¬ isInside N L i j) :
    nnzRow N (matrix_builder N L g).1 (i * N + j) = 1 := by
  obtain ⟨EA, -⟩ := builder_boundary N L g hi hj h
  unfold nnzRow
  have hset : ((Finset.range (N * N)).filter
      fun c : ℕ => (matrix_builder N L g).1 ((i * N + j : ℕ) : ℤ) (c : ℤ) ≠ 0)
      = {i * N + j} := by
    ext c
    simp only [Finset.mem_filter, Finset.mem_range, Finset.mem_singleton]
    rw [← rowIdxZ_pair, EA (c : ℤ)]
    constructor
    · rintro ⟨-, hne⟩
      by_contra hc
      rw [if_neg] at hne
      · exact hne rfl
      · rw [rowIdxZ_pair]
        exact_mod_cast hc
    · rintro rfl
      refine ⟨flat_lt hi hj, ?_⟩
      rw [if_pos (rowIdxZ_pair N i j).symm]
      norm_num
  rw [hset, Finset.card_singleton]

/-- Interior rows hold exactly five nonzero entries. -/
lemma nnzRow_interior (N : ℕ) (L : ℚ) (g : ℚ → ℚ → ℚ) (hN : 2 ≤ N)
    (hL : 0 < L) {i j : ℕ} (hi : i < N) (hj : j < N)
    (hint : interiorIdx N i j) :
    nnzRow N (matrix_builder N L g).1 (i * N + j) = 5 := by
  obtain ⟨EA, -⟩ := builder_interior N L g hN hL hi hj hint
  obtain ⟨f1, f2, f3, f4⟩ := hint
  obtain ⟨i', rfl⟩ : ∃ i', i = i' + 1 := ⟨i - 1, by omega⟩
  obtain ⟨j', rfl⟩ : ∃ j', j = j' + 1 := ⟨j - 1, by omega⟩
  have hN3 : 3 ≤ N := by omega
  obtain ⟨k, hk0⟩ : ∃ k : ℤ, rowIdxZ N (i' + 1, j' + 1) = k := ⟨_, rfl⟩
  rw [hk0] at EA
  have hkval : k = ((i' : ℤ) + 1) * N + ((j' : ℤ) + 1) := by
    rw [← hk0]; unfold rowIdxZ; push_cast; ring
  have castA : ((i' * N + (j' + 1) : ℕ) : ℤ) = k - N := by
    rw [hkval]; push_cast; ring
  have castB : (((i' + 1) * N + j' : ℕ) : ℤ) = k - 1 := by
    rw [hkval]; push_cast; ring
  have castC : (((i' + 1) * N + (j' + 1) : ℕ) : ℤ) = k := by
    rw [hkval]; push_cast; ring
  have castD : (((i' + 1) * N + (j' + 2) : ℕ) : ℤ) = k + 1 := by
    rw [hkval]; push_cast; ring
  have castE : (((i' + 2) * N + (j' + 1) : ℕ) : ℤ) = k + N := by
    rw [hkval]; push_cast; ring
  have hrk : (((i' + 1) * N + (j' + 1) : ℕ) : ℤ) = k := castC
  unfold nnzRow
  have hset : ((Finset.range (N * N)).filter
      fun c : ℕ =>
        (matrix_builder N L g).1 (((i' + 1) * N + (j' + 1) : ℕ) : ℤ) (c : ℤ) ≠ 0)
      = {i' * N + (j' + 1), (i' + 1) * N + j', (i' + 1) * N + (j' + 1),
          (i' + 1) * N + (j' + 2), (i' + 2) * N + (j' + 1)} := by
    ext c
    simp only [Finset.mem_filter, Finset.mem_range, Finset.mem_insert,
      Finset.mem_singleton]
    rw [hrk, EA (c : ℤ)]
    constructor
    · rintro ⟨-, hne⟩
      by_contra hc
      push_neg at hc
      obtain ⟨n1, n2, n3, n4, n5⟩ := hc
      rw [if_neg, if_neg] at hne
      · exact hne rfl
      · rintro (hcc | hcc | hcc | hcc)
        · exact n1 (Nat.cast_inj.mp (by rw [castA]; exact hcc))
        · exact n5 (Nat.cast_inj.mp (by rw [castE]; exact hcc))
        · exact n2 (Nat.cast_inj.mp (by rw [castB]; exact hcc))
        · exact n4 (Nat.cast_inj.mp (by rw [castD]; exact hcc))
      · intro hcc
        exact n3 (Nat.cast_inj.mp (by rw [castC]; exact hcc))
    · rintro (rfl | rfl | rfl | rfl | rfl)
      · refine ⟨flat_lt (by omega) (by omega), ?_⟩
        rw [castA, if_neg (by omega), if_pos (Or.inl rfl)]
        norm_num
      · refine ⟨flat_lt (by omega) (by omega), ?_⟩
        rw [castB, if_neg (by omega), if_pos (Or.inr (Or.inr (Or.inl rfl)))]
        norm_num
      · refine ⟨flat_lt (by omega) (by omega), ?_⟩
        rw [castC, if_pos rfl]
        norm_num
      · refine ⟨flat_lt (by omega) (by omega), ?_⟩
        rw [castD, if_neg (by omega), if_pos (Or.inr (Or.inr (Or.inr rfl)))]
        norm_num
      · refine ⟨flat_lt (by omega) (by omega), ?_⟩
        rw [castE, if_neg (by omega), if_pos (Or.inr (Or.inl rfl))]
        norm_num
  rw [hset]
  have dAB : i' * N + (j' + 1) ≠ (i' + 1) * N + j' := by
    intro h; have := congrArg (Nat.cast : ℕ → ℤ) h
    rw [castA, castB] at this; omega
  have dAC : i' * N + (j' + 1) ≠ (i' + 1) * N + (j' + 1) := by
    intro h; have := congrArg (Nat.cast : ℕ → ℤ) h
    rw [castA, castC] at this; omega
  have dAD : i' * N + (j' + 1) ≠ (i' + 1) * N + (j' + 2) := by
    intro h; have := congrArg (Nat.cast : ℕ → ℤ) h
    rw [castA, castD] at this; omega
  have dAE : i' * N + (j' + 1) ≠ (i' + 2) * N + (j' + 1) := by
    intro h; have := congrArg (Nat.cast : ℕ → ℤ) h
    rw [castA, castE] at this; omega
  have dBC : (i' + 1) * N + j' ≠ (i' + 1) * N + (j' + 1) := by omega
  have dBD : (i' + 1) * N + j' ≠ (i' + 1) * N + (j' + 2) := by omega
  have dBE : (i' + 1) * N + j' ≠ (i' + 2) * N + (j' + 1) := by
    intro h; have := congrArg (Nat.cast : ℕ → ℤ) h
    rw [castB, castE] at this; omega
  have dCD : (i' + 1) * N + (j' + 1) ≠ (i' + 1) * N + (j' + 2) := by omega
  have dCE : (i' + 1) * N + (j' + 1) ≠ (i' + 2) * N + (j' + 1) := by
    intro h; have := congrArg (Nat.cast : ℕ → ℤ) h
    rw [castC, castE] at this; omega
  have dDE : (i' + 1) * N + (j' + 2) ≠ (i' + 2) * N + (j' + 1) := by
    intro h; have := congrArg (Nat.cast : ℕ → ℤ) h
    rw [castD, castE] at this; omega
  rw [Finset.card_insert_of_not_mem (by
      simp only [Finset.mem_insert, Finset.mem_singleton]
      rintro (h | h | h | h)
      exacts [dAB h, dAC h, dAD h, dAE h]),
    Finset.card_insert_of_not_mem (by
      simp only [Finset.mem_insert, Finset.mem_singleton]
      rintro (h | h | h)
      exacts [dBC h, dBD h, dBE h]),
    Finset.card_insert_of_not_mem (by
      simp only [Finset.mem_insert, Finset.mem_singleton]
      rintro (h | h)
      exacts [dCD h, dCE h]),
    Finset.card_insert_of_not_mem (by
      simp only [Finset.mem_singleton]
      exact dDE),
    Finset.card_singleton]

lemma sum_indicator_interior (N : ℕ) (hN : 2 ≤ N) :
    (∑ t in Finset.range N, if 0 < t ∧ t < N - 1 then 1 else 0) = N - 2 := by
  have hfilter : (Finset.range N).filter (fun t => 0 < t ∧ t < N - 1)
      = Finset.Ioo 0 (N - 1) := by
    ext t
    simp only [Finset.mem_filter, Finset.mem_range, Finset.mem_Ioo]
    omega
  rw [Finset.sum_boole, hfilter]
  simp only [Nat.cast_id, Nat.card_Ioo]
  omega

/-- Per-row count: `5` on interior rows, `1` on boundary rows. -/
lemma nnzRow_eq (N : ℕ) (L : ℚ) (g : ℚ → ℚ → ℚ) (hN : 2 ≤ N) (hL : 0 < L)
    {i j : ℕ} (hi : i < N) (hj : j < N) :
    nnzRow N (matrix_builder N L g).1 (i * N + j)
      = if interiorIdx N i j then 5 else 1 := by
  by_cases hint : interiorIdx N i j
  · rw [if_pos hint]
    exact nnzRow_interior N L g hN hL hi hj hint
  · rw [if_neg hint]
    exact nnzRow_boundary N L g hi hj
      (fun hin => hint ((isInside_iff_interiorIdx hN hL hi hj).1 hin))

/-- Total nonzero count of the assembled matrix. -/
lemma total_nnz (N : ℕ) (L : ℚ) (g : ℚ → ℚ → ℚ) (hN : 2 ≤ N) (hL : 0 < L) :
    (∑ k in Finset.range (N * N), nnzRow N (matrix_builder N L g).1 k)
      = 4 * (N - 2) ^ 2 + N ^ 2 := by
  rw [sum_range_mul_eq N N (nnzRow N (matrix_builder N L g).1)]
  rw [Finset.sum_congr rfl (fun i hi => Finset.sum_congr rfl
    (fun j hj => nnzRow_eq N L g hN hL
      (Finset.mem_range.1 hi) (Finset.mem_range.1 hj)))]
  have point : ∀ i j : ℕ, (if interiorIdx N i j then 5 else 1)
      = 1 + 4 * ((if 0 < i ∧ i < N - 1 then 1 else 0)
          * (if 0 < j ∧ j < N - 1 then 1 else 0)) := by
    intro i j
    unfold interiorIdx
    split_ifs <;> omega
  rw [Finset.sum_congr rfl (fun i _ => Finset.sum_congr rfl
    (fun j _ => point i j))]
  have inner : ∀ i : ℕ,
      (∑ j in Finset.range N, (1 + 4 * ((if 0 < i ∧ i < N - 1 then 1 else 0)
        * (if 0 < j ∧ j < N - 1 then 1 else 0))))
      = N + 4 * ((if 0 < i ∧ i < N - 1 then 1 else 0) * (N - 2)) := by
    intro i
    rw [Finset.sum_add_distrib, Finset.sum_const, Finset.card_range,
      smul_eq_mul, mul_one, ← Finset.mul_sum, ← Finset.mul_sum,
      sum_indicator_interior N hN]
  rw [Finset.sum_congr rfl (fun i _ => inner i)]
  rw [Finset.sum_add_distrib, Finset.sum_const, Finset.card_range,
    smul_eq_mul, ← Finset.mul_sum, ← Finset.sum_mul,
    sum_indicator_interior N hN]
  ring

/-! ## Order independence of the assembly loop -/

/-- Folding the loop body over any permutation of the grid points yields
the same `(A, B)`: no row of the output depends on another row's
iteration, so the result is a function of the inputs alone. -/
lemma foldl_perm_eq (N : ℕ) (L : ℚ) (g : ℚ → ℚ → ℚ) (l : List (ℕ × ℕ))
    (hl : l.Perm (gridPoints N)) :
    l.foldl (matrixStep N L g) initState = matrix_builder N L g := by
  classical
  have hnd : (l.map (rowIdxZ N)).Nodup :=
    ((hl.map (rowIdxZ N)).nodup_iff).2 (gridPoints_rowIdx_nodup N)
  unfold matrix_builder
  have hA : ∀ r : ℤ, ∀ c : ℤ,
      (l.foldl (matrixStep N L g) initState).1 r c
        = ((gridPoints N).foldl (matrixStep N L g) initState).1 r c := by
    intro r c
    by_cases hex : ∃ p ∈ gridPoints N, rowIdxZ N p = r
    · obtain ⟨p, hp, rfl⟩ := hex
      rw [((fold_row N L g l initState p (hl.mem_iff.2 hp) hnd).1 c)]
      rw [((fold_row N L g (gridPoints N) initState p hp
        (gridPoints_rowIdx_nodup N)).1 c)]
    · push_neg at hex
      rw [(fold_frame N L g l initState r
        (fun p hp => hex p (hl.mem_iff.1 hp))).1 c]
      rw [(fold_frame N L g (gridPoints N) initState r hex).1 c]
  have hB : ∀ r : ℤ,
      (l.foldl (matrixStep N L g) initState).2 r
        = ((gridPoints N).foldl (matrixStep N L g) initState).2 r := by
    intro r
    by_cases hex : ∃ p ∈ gridPoints N, rowIdxZ N p = r
    · obtain ⟨p, hp, rfl⟩ := hex
      rw [(fold_row N L g l initState p (hl.mem_iff.2 hp) hnd).2]
      rw [(fold_row N L g (gridPoints N) initState p hp
        (gridPoints_rowIdx_nodup N)).2]
    · push_neg at hex
      rw [(fold_frame N L g l initState r
        (fun p hp => hex p (hl.mem_iff.1 hp))).2]
      rw [(fold_frame N L g (gridPoints N) initState r hex).2]
  exact Prod.ext (funext fun r => funext fun c => hA r c) (funext hB)

/-! ## The constant-one solution for the constant-one boundary -/

lemma decode_range_nat {N r : ℕ} (hr : r < N * N) :
    ∃ i j, i < N ∧ j < N ∧ r = i * N + j := by
  have hN : 0 < N := by
    rcases Nat.eq_zero_or_pos N with h | h
    · subst h; omega
    · exact h
  refine ⟨r / N, r % N, ?_, Nat.mod_lt _ hN, ?_⟩
  · exact (Nat.div_lt_iff_lt_mul hN).2 hr
  · rw [mul_comm]
    exact (Nat.div_add_mod r N).symm

/-- With the constant boundary function `1`, the constant vector `1`
solves the assembled system exactly. -/
lemma ones_solves (N : ℕ) (L : ℚ) (hN : 2 ≤ N) (hL : 0 < L) :
    lin_solves N (matrix_builder N L (fun _ _ => 1)) (fun _ => 1) := by
  intro r hr
  obtain ⟨i, j, hi, hj, rfl⟩ := decode_range_nat hr
  rw [← rowIdxZ_pair]
  by_cases hin : isInside N L i j
  · rw [sum_row_interior N L _ hN hL hi hj
      ((isInside_iff_interiorIdx hN hL hi hj).1 hin) (fun _ => 1)]
    rw [(builder_interior N L (fun _ _ => 1) hN hL hi hj
      ((isInside_iff_interiorIdx hN hL hi hj).1 hin)).2]
    norm_num
  · rw [sum_row_boundary N L _ hi hj hin (fun _ => 1)]
    rw [(builder_boundary N L (fun _ _ => 1) hi hj hin).2]

/-! ## Claim theorems -/

/-- C1: for every `N ≥ 2`, `L > 0`, boundary function `g`, and grid point
`(i, j)` with flat index `k = i·N + j`: if `(i, j)` is interior
(`0 < i, j < N-1`) the assembler sets `A[k,k] = -4`,
`A[k,k-N] = A[k,k+N] = A[k,k-1] = A[k,k+1] = 1` and leaves `B[k] = 0`;
otherwise it sets `A[k,k] = 1` and `B[k] = g(x_i, y_j)`; no other entry
of row `k`, and no entry outside the `N² × N²` range, is populated. -/
theorem C1_assembler_entries (N : ℕ) (L : ℚ) (g : ℚ → ℚ → ℚ)
    (hN : 2 ≤ N) (hL : 0 < L) (i j : ℕ) (hi : i < N) (hj : j < N) :
    (interiorIdx N i j →
      (matrix_builder N L g).1 (rowIdxZ N (i, j)) (rowIdxZ N (i, j)) = -4
      ∧ (matrix_builder N L g).1 (rowIdxZ N (i, j)) (rowIdxZ N (i, j) - N) = 1
      ∧ (matrix_builder N L g).1 (rowIdxZ N (i, j)) (rowIdxZ N (i, j) + N) = 1
      ∧ (matrix_builder N L g).1 (rowIdxZ N (i, j)) (rowIdxZ N (i, j) - 1) = 1
      ∧ (matrix_builder N L g).1 (rowIdxZ N (i, j)) (rowIdxZ N (i, j) + 1) = 1
      ∧ (matrix_builder N L g).2 (rowIdxZ N (i, j)) = 0
      ∧ ∀ c : ℤ, c ≠ rowIdxZ N (i, j) → c ≠ rowIdxZ N (i, j) - N →
          c ≠ rowIdxZ N (i, j) + N → c ≠ rowIdxZ N (i, j) - 1 →
          c ≠ rowIdxZ N (i, j) + 1 →
          (matrix_builder N L g).1 (rowIdxZ N (i, j)) c = 0)
    ∧ (¬ interiorIdx N i j →
      (matrix_builder N L g).1 (rowIdxZ N (i, j)) (rowIdxZ N (i, j)) = 1
      ∧ (matrix_builder N L g).2 (rowIdxZ N (i, j))
          = g (xcoord N L i) (xcoord N L j)
      ∧ ∀ c : ℤ, c ≠ rowIdxZ N (i, j) →
          (matrix_builder N L g).1 (rowIdxZ N (i, j)) c = 0)
    ∧ (∀ r : ℤ, r < 0 ∨ (N : ℤ) * N ≤ r →
        (∀ c, (matrix_builder N L g).1 r c = 0)
        ∧ (matrix_builder N L g).2 r = 0) := by
  refine ⟨?_, ?_, fun r hr => builder_outside N L g hr⟩
  · intro hint
    obtain ⟨EA, EB⟩ := builder_interior N L g hN hL hi hj hint
    have hN3 : 3 ≤ N := by
      obtain ⟨a, b, c, d⟩ := hint; omega
    refine ⟨?_, ?_, ?_, ?_, ?_, EB, ?_⟩
    · rw [EA, if_pos rfl]
    · rw [EA, if_neg (by omega), if_pos (Or.inl rfl)]
    · rw [EA, if_neg (by omega), if_pos (Or.inr (Or.inl rfl))]
    · rw [EA, if_neg (by omega), if_pos (Or.inr (Or.inr (Or.inl rfl)))]
    · rw [EA, if_neg (by omega), if_pos (Or.inr (Or.inr (Or.inr rfl)))]
    · intro c h1 h2 h3 h4 h5
      have hd : ¬(c = rowIdxZ N (i, j) - N ∨ c = rowIdxZ N (i, j) + N
          ∨ c = rowIdxZ N (i, j) - 1 ∨ c = rowIdxZ N (i, j) + 1) := by
        rintro (h | h | h | h)
        exacts [h2 h, h3 h, h4 h, h5 h]
      rw [EA, if_neg h1, if_neg hd]
  · intro hbnd
    obtain ⟨EA, EB⟩ := builder_boundary N L g hi hj
      (fun hin => hbnd ((isInside_iff_interiorIdx hN hL hi hj).1 hin))
    exact ⟨by rw [EA, if_pos rfl], EB, fun c hc => by rw [EA, if_neg hc]⟩

theorem C1_assembler_entries_witness :
    (matrix_builder 3 2 (fun _ _ => 1)).1 (rowIdxZ 3 (1, 1))
      (rowIdxZ 3 (1, 1)) = -4 :=
  ((C1_assembler_entries 3 2 (fun _ _ => 1) (by norm_num) (by norm_num)
    1 1 (by norm_num) (by norm_num)).1 (by decide)).1

/-- C2 (counterexample): the claim says `assemble` fails with
`InvalidGridError` for every `N < 2` and returns no partial result; but
`matrix_builder(1, 1)` raises nothing and returns the populated system
`A = [[1]]`, `B = [g(x₀, y₀)]`. -/
theorem C2_counterexample :
    (matrix_builder 1 1 (fun _ _ => 1)).1 (rowIdxZ 1 (0, 0))
        (rowIdxZ 1 (0, 0)) = 1
    ∧ (matrix_builder 1 1 (fun _ _ => 1)).2 (rowIdxZ 1 (0, 0)) = 1 := by
  have hnin : ¬ isInside 1 1 0 0 :=
    @not_isInside_of_degenerate 1 1 (Or.inl (by norm_num)) 0 0
      (by norm_num) (by norm_num)
  obtain ⟨EA, EB⟩ := @builder_boundary 1 1 (fun _ _ => 1) 0 0
    (by norm_num) (by norm_num) hnin
  exact ⟨by rw [EA, if_pos rfl], EB⟩

/-- C2 (amended): `matrix_builder` performs no input validation and never
fails: for `N < 2` or `L ≤ 0` it still returns a populated pair `(A, B)`;
in these degenerate cases no grid point passes the interior test, so every
processed row is a boundary row `A[k,k] = 1`, `B[k] = g(x_i, y_j)`. -/
theorem C2_no_validation (N : ℕ) (L : ℚ) (g : ℚ → ℚ → ℚ)
    (h : N < 2 ∨ L ≤ 0) (i j : ℕ) (hi : i < N) (hj : j < N) :
    (matrix_builder N L g).1 (rowIdxZ N (i, j)) (rowIdxZ N (i, j)) = 1
    ∧ (matrix_builder N L g).2 (rowIdxZ N (i, j))
        = g (xcoord N L i) (xcoord N L j)
    ∧ ∀ c : ℤ, c ≠ rowIdxZ N (i, j) →
        (matrix_builder N L g).1 (rowIdxZ N (i, j)) c = 0 := by
  obtain ⟨EA, EB⟩ := builder_boundary N L g hi hj
    (not_isInside_of_degenerate h hi hj)
  exact ⟨by rw [EA, if_pos rfl], EB, fun c hc => by rw [EA, if_neg hc]⟩

theorem C2_no_validation_witness :
    (matrix_builder 1 (-1) (fun _ _ => 1)).1 (rowIdxZ 1 (0, 0))
      (rowIdxZ 1 (0, 0)) = 1 :=
  (C2_no_validation 1 (-1) (fun _ _ => 1) (Or.inl (by norm_num))
    0 0 (by norm_num) (by norm_num)).1

/-- C3 (counterexample): the dense entry point does not return a field
queryable by grid coordinate: `naive_solver(3, 2)` returns `None` (the
Python function has no `return` statement); nor does it accept a
caller-supplied boundary function (`g` is a closure fixed inside
`matrix_builder`). -/
theorem C3_counterexample : naive_solver 3 2 false = none := rfl

/-- C3 (amended): in the code the boundary function is fixed inside
`matrix_builder` (to `cos(2π(2x+y)/L)`) rather than caller-supplied, and
`naive_solver(N, L, plot)` returns `None` for every input — no field is
returned; the solution is reshaped through `field[i][j] = X[i·N+j]` only
inside `plot_solution`, for display. -/
theorem C3_pipeline_shape :
    (∀ (N : ℕ) (L : ℚ) (plot : Bool), naive_solver N L plot = none)
    ∧ (∀ (X : ℕ → ℚ) (N i j : ℕ), toField X N i j = X (i * N + j)) :=
  ⟨fun _ _ _ => rfl, fun _ _ _ _ => rfl⟩

/-- C4: for every `N ≥ 2` and `L > 0`, a grid point `(i, j)` passes the
assembler's interior test exactly when `0 < i < N-1` and `0 < j < N-1`;
the classification is total and exclusive (it is a decidable predicate),
and depends on `N` alone: it is invariant under changing `L` (and takes
neither the boundary function nor the solution as input). -/
theorem C4_classification (N : ℕ) (L : ℚ) (i j : ℕ) (hN : 2 ≤ N)
    (hL : 0 < L) (hi : i < N) (hj : j < N) :
    (isInside N L i j ↔ interiorIdx N i j)
    ∧ ∀ L' : ℚ, 0 < L' → (isInside N L i j ↔ isInside N L' i j) := by
  refine ⟨isInside_iff_interiorIdx hN hL hi hj, fun L' hL' => ?_⟩
  rw [isInside_iff_interiorIdx hN hL hi hj,
    isInside_iff_interiorIdx hN hL' hi hj]

theorem C4_classification_witness : isInside 3 2 1 1 :=
  (C4_classification 3 2 1 1 (by norm_num) (by norm_num) (by norm_num)
    (by norm_num)).1.mpr (by decide)

/-- C5: for every `N ≥ 2` and `L > 0`, each row of the assembled `A` has
exactly `5` nonzero entries if its grid point is interior and exactly `1`
otherwise, and the total number of nonzeros is `4·(N-2)² + N²`. -/
theorem C5_nonzero_counts (N : ℕ) (L : ℚ) (g : ℚ → ℚ → ℚ)
    (hN : 2 ≤ N) (hL : 0 < L) :
    (∀ i j : ℕ, i < N → j < N →
      nnzRow N (matrix_builder N L g).1 (i * N + j)
        = if interiorIdx N i j then 5 else 1)
    ∧ (∑ k in Finset.range (N * N), nnzRow N (matrix_builder N L g).1 k)
        = 4 * (N - 2) ^ 2 + N ^ 2 :=
  ⟨fun i j hi hj => nnzRow_eq N L g hN hL hi hj, total_nnz N L g hN hL⟩

theorem C5_nonzero_counts_witness :
    nnzRow 2 (matrix_builder 2 1 (fun _ _ => 1)).1 (0 * 2 + 1)
      = if interiorIdx 2 0 1 then 5 else 1 :=
  (C5_nonzero_counts 2 1 (fun _ _ => 1) (by norm_num) (by norm_num)).1
    0 1 (by norm_num) (by norm_num)

/-- C6: for every `N ≥ 3`, `L > 0` and boundary function `g`, the sparse
assembly materializes to a matrix (and right-hand side) numerically
identical to the dense assembly's, and any solutions produced by the
dense and sparse solve strategies agree within `1e-6` absolute tolerance
on every grid entry (indeed they agree exactly, the system having a
unique solution). -/
theorem C6_sparse_dense_agreement (N : ℕ) (L : ℚ) (g : ℚ → ℚ → ℚ)
    (hN : 3 ≤ N) (hL : 0 < L) :
    (∀ r c : ℤ, materialize ((sparse_matrix_builder N L g).1) r c
        = (matrix_builder N L g).1 r c)
    ∧ (∀ r : ℤ, (sparse_matrix_builder N L g).2 r
        = (matrix_builder N L g).2 r)
    ∧ ∀ Xd Xs : ℤ → ℚ, lin_solves N (matrix_builder N L g) Xd →
        sparse_lin_solves N (sparse_matrix_builder N L g) Xs →
        ∀ i j : ℕ, i < N → j < N →
          |Xd (rowIdxZ N (i, j)) - Xs (rowIdxZ N (i, j))| ≤ 1 / 1000000 := by
  have hN2 : 2 ≤ N := by omega
  refine ⟨fun r c => materialize_eq_dense N L g hN2 hL r c,
    fun r => sparse_B_eq_dense N L g hN2 hL r, ?_⟩
  intro Xd Xs hXd hXs i j hi hj
  have hXs' : lin_solves N (matrix_builder N L g) Xs :=
    (sparse_solves_iff_dense N L g hN2 hL Xs).1 hXs
  rw [builder_unique N L g hN2 hL hXd hXs' i j hi hj, sub_self, abs_zero]
  norm_num

theorem C6_sparse_dense_agreement_witness : |(1 : ℚ) - 1| ≤ 1 / 1000000 :=
  (C6_sparse_dense_agreement 3 2 (fun _ _ => 1) (by norm_num)
      (by norm_num)).2.2
    (fun _ => 1) (fun _ => 1)
    (ones_solves 3 2 (by norm_num) (by norm_num))
    ((sparse_solves_iff_dense 3 2 (fun _ _ => 1) (by norm_num) (by norm_num)
        (fun _ => 1)).2 (ones_solves 3 2 (by norm_num) (by norm_num)))
    1 1 (by norm_num) (by norm_num)

/-- C7: the codec maps `toField(X, N)[i][j] = X[i·N+j]`, the round trip
`toVector(toField(X, N), N)` returns `X` exactly, and on grid coordinates
the opposite composition returns the field unchanged — `toField` and
`toVector` are mutual inverses. -/
theorem C7_codec_roundtrip :
    (∀ (X : ℕ → ℚ) (N i j : ℕ), toField X N i j = X (i * N + j))
    ∧ (∀ (X : ℕ → ℚ) (N : ℕ), toVector (toField X N) N = X)
    ∧ (∀ (F : ℕ → ℕ → ℚ) (N i j : ℕ), i < N → j < N →
        toField (toVector F N) N i j = F i j) := by
  refine ⟨fun _ _ _ _ => rfl, fun X N => funext fun k => ?_,
    fun F N i j hi hj => ?_⟩
  · show X (k / N * N + k % N) = X k
    congr 1
    rw [mul_comm]
    exact Nat.div_add_mod k N
  · show F ((i * N + j) / N) ((i * N + j) % N) = F i j
    have hN : 0 < N := by omega
    have hdiv : (i * N + j) / N = i := by
      rw [add_comm, Nat.add_mul_div_right _ _ hN, Nat.div_eq_of_lt hj,
        zero_add]
    have hmod : (i * N + j) % N = j := by
      rw [add_comm, Nat.add_mul_mod_self_right, Nat.mod_eq_of_lt hj]
    rw [hdiv, hmod]

theorem C7_codec_roundtrip_witness :
    toField (toVector (fun i j => (i : ℚ) - j) 2) 2 1 0
      = (fun i j => (i : ℚ) - j) 1 0 :=
  C7_codec_roundtrip.2.2 (fun i j => (i : ℚ) - j) 2 1 0 (by norm_num)
    (by norm_num)

/-- C8: for `N = 3`, `L = 2` and the constant boundary function
`g(x, y) = 1`, the assembled system is solved exactly by the all-ones
vector, and every exact solve decodes to the constant field
`field[i][j] = 1` at every grid point. -/
theorem C8_constant_boundary :
    lin_solves 3 (matrix_builder 3 2 (fun _ _ => 1)) (fun _ => 1)
    ∧ ∀ X : ℤ → ℚ, lin_solves 3 (matrix_builder 3 2 (fun _ _ => 1)) X →
        ∀ i j : ℕ, i < 3 → j < 3 →
          toField (fun k => X (k : ℤ)) 3 i j = 1 := by
  refine ⟨ones_solves 3 2 (by norm_num) (by norm_num), ?_⟩
  intro X hX i j hi hj
  have h := builder_unique 3 2 (fun _ _ => 1) (by norm_num) (by norm_num) hX
    (ones_solves 3 2 (by norm_num) (by norm_num)) i j hi hj
  show X ((i * 3 + j : ℕ) : ℤ) = 1
  rw [← rowIdxZ_pair]
  exact h

theorem C8_constant_boundary_witness :
    toField (fun _ => (1 : ℚ)) 3 1 1 = 1 :=
  C8_constant_boundary.2 (fun _ => 1)
    (ones_solves 3 2 (by norm_num) (by norm_num)) 1 1 (by norm_num)
    (by norm_num)

/-- C9: the assembler is deterministic and side-effect-free: in the
embedding it is a pure function whose output depends only on
`(N, L, g)`; in particular the output does not even depend on the
iteration order of the loop — folding the loop body over any permutation
of the grid points from the same zero arrays yields the identical
`(A, B)`. -/
theorem C9_deterministic (N : ℕ) (L : ℚ) (g : ℚ → ℚ → ℚ)
    (l : List (ℕ × ℕ)) (hl : l.Perm (gridPoints N)) :
    l.foldl (matrixStep N L g) initState = matrix_builder N L g :=
  foldl_perm_eq N L g l hl

theorem C9_deterministic_witness :
    (gridPoints 2).reverse.foldl (matrixStep 2 1 (fun _ _ => 1)) initState
      = matrix_builder 2 1 (fun _ _ => 1) :=
  C9_deterministic 2 1 (fun _ _ => 1) (gridPoints 2).reverse
    ((gridPoints 2).reverse_perm)

/-- C10: whenever a grid point `(i, j)` passes the assembler's interior
test, the five flat indices written in that branch — `(i-1)·N+j`,
`(i+1)·N+j`, `i·N+j-1`, `i·N+j+1` and `i·N+j` — all lie in `[0, N²)`, so
no assignment indexes `A` out of bounds and numpy's negative-index
wrap-around (`npWrap`) is the identity on every written index. -/
theorem C10_interior_bounds (N : ℕ) (L : ℚ) (i j : ℕ) (hN : 2 ≤ N)
    (hL : 0 < L) (hi : i < N) (hj : j < N) (hin : isInside N L i j) :
    (0 ≤ ((i : ℤ) - 1) * N + j ∧ ((i : ℤ) - 1) * N + j < (N : ℤ) * N
      ∧ npWrap ((N : ℤ) * N) (((i : ℤ) - 1) * N + j)
          = ((i : ℤ) - 1) * N + j)
    ∧ (0 ≤ ((i : ℤ) + 1) * N + j ∧ ((i : ℤ) + 1) * N + j < (N : ℤ) * N
      ∧ npWrap ((N : ℤ) * N) (((i : ℤ) + 1) * N + j)
          = ((i : ℤ) + 1) * N + j)
    ∧ (0 ≤ (i : ℤ) * N + j - 1 ∧ (i : ℤ) * N + j - 1 < (N : ℤ) * N
      ∧ npWrap ((N : ℤ) * N) ((i : ℤ) * N + j - 1) = (i : ℤ) * N + j - 1)
    ∧ (0 ≤ (i : ℤ) * N + j + 1 ∧ (i : ℤ) * N + j + 1 < (N : ℤ) * N
      ∧ npWrap ((N : ℤ) * N) ((i : ℤ) * N + j + 1) = (i : ℤ) * N + j + 1)
    ∧ (0 ≤ (i : ℤ) * N + j ∧ (i : ℤ) * N + j < (N : ℤ) * N
      ∧ npWrap ((N : ℤ) * N) ((i : ℤ) * N + j) = (i : ℤ) * N + j) := by
  obtain ⟨f1, f2, f3, f4⟩ := (isInside_iff_interiorIdx hN hL hi hj).1 hin
  obtain ⟨i', rfl⟩ : ∃ i', i = i' + 1 := ⟨i - 1, by omega⟩
  obtain ⟨j', rfl⟩ : ∃ j', j = j' + 1 := ⟨j - 1, by omega⟩
  have w1 : ((↑(i' + 1) : ℤ) - 1) * N + (↑(j' + 1) : ℤ)
      = ((i' * N + (j' + 1) : ℕ) : ℤ) := by push_cast; ring
  have w2 : ((↑(i' + 1) : ℤ) + 1) * N + (↑(j' + 1) : ℤ)
      = (((i' + 2) * N + (j' + 1) : ℕ) : ℤ) := by push_cast; ring
  have w3 : (↑(i' + 1) : ℤ) * N + (↑(j' + 1) : ℤ) - 1
      = (((i' + 1) * N + j' : ℕ) : ℤ) := by push_cast; ring
  have w4 : (↑(i' + 1) : ℤ) * N + (↑(j' + 1) : ℤ) + 1
      = (((i' + 1) * N + (j' + 2) : ℕ) : ℤ) := by push_cast; ring
  have w5 : (↑(i' + 1) : ℤ) * N + (↑(j' + 1) : ℤ)
      = (((i' + 1) * N + (j' + 1) : ℕ) : ℤ) := by push_cast; ring
  have hNN : ((N * N : ℕ) : ℤ) = (N : ℤ) * N := by push_cast; ring
  refine ⟨⟨?_, ?_, ?_⟩, ⟨?_, ?_, ?_⟩, ⟨?_, ?_, ?_⟩, ⟨?_, ?_, ?_⟩,
    ⟨?_, ?_, ?_⟩⟩
  · rw [w1]; positivity
  · rw [w1, ← hNN]; exact_mod_cast flat_lt (by omega) (by omega)
  · exact npWrap_id (by rw [w1]; positivity)
  · rw [w2]; positivity
  · rw [w2, ← hNN]; exact_mod_cast flat_lt (by omega) (by omega)
  · exact npWrap_id (by rw [w2]; positivity)
  · rw [w3]; positivity
  · rw [w3, ← hNN]; exact_mod_cast flat_lt (by omega) (by omega)
  · exact npWrap_id (by rw [w3]; positivity)
  · rw [w4]; positivity
  · rw [w4, ← hNN]; exact_mod_cast flat_lt (by omega) (by omega)
  · exact npWrap_id (by rw [w4]; positivity)
  · rw [w5]; positivity
  · rw [w5, ← hNN]; exact_mod_cast flat_lt (by omega) (by omega)
  · exact npWrap_id (by rw [w5]; positivity)

theorem C10_interior_bounds_witness :
    0 ≤ ((1 : ℕ) : ℤ) * 3 + ((1 : ℕ) : ℤ) - 1
    ∧ ((1 : ℕ) : ℤ) * 3 + ((1 : ℕ) : ℤ) - 1 < (3 : ℤ) * 3
    ∧ npWrap ((3 : ℤ) * 3) (((1 : ℕ) : ℤ) * 3 + ((1 : ℕ) : ℤ) - 1)
        = ((1 : ℕ) : ℤ) * 3 + ((1 : ℕ) : ℤ) - 1 :=
  (C10_interior_bounds 3 2 1 1 (by norm_num) (by norm_num) (by norm_num)
    (by norm_num)
    ((isInside_iff_interiorIdx (by norm_num) (by norm_num) (by norm_num)
      (by norm_num)).mpr (by decide))).2.2.1

end LaplaceFD
